import Mathlib

/-!
Shallow embedding of the Media-Splitter split logic (`splitMedia` in
`src/App.jsx`, current revision): boundary planning for the three split
modes (equal parts, by size, by time), the sequential per-window engine
invocation with status/progress reporting, the ffmpeg argument lists, and
the output naming scheme.  JavaScript floating-point numbers are modelled
as exact rationals; JS `Math.ceil` is `Int.ceil`, JS `Math.round` is
`fun q => ⌊q + 1/2⌋` (round half toward positive infinity).
-/

namespace MediaSplitter

/-- Time window of the source timeline, as computed by the planning loop:
`start` seconds and `duration` seconds. -/
structure Window where
  start : ℚ
  duration : ℚ
deriving DecidableEq, Repr

/-- Split specification: the `splitMode` state together with its active
parameter (`parts`, `splitSize` in MB, `splitTime` in seconds). -/
inductive SplitSpec where
  | parts (count : ℕ)
  | bySize (targetMB : ℚ)
  | byTime (targetSeconds : ℚ)
deriving DecidableEq, Repr

/-- Policy minimums the UI enforces on the split parameters:
`parts ≥ 2` (Minus button floor), `splitSize ≥ 1` MB, `splitTime ≥ 10` s. -/
def SplitSpec.Valid : SplitSpec → Prop
  | .parts count => 2 ≤ count
  | .bySize targetMB => 1 ≤ targetMB
  | .byTime targetSeconds => 10 ≤ targetSeconds

/-- JavaScript `Math.round`: rounds half toward positive infinity. -/
def jsRound (q : ℚ) : ℤ := ⌊q + 1 / 2⌋

/-- JavaScript `String.prototype.split` with a one-character separator,
on the underlying character list. -/
def splitOnChar (sep : Char) : List Char → List (List Char)
  | [] => [[]]
  | c :: rest =>
    match splitOnChar sep rest with
    | [] => [[]]
    | w :: ws => if c = sep then [] :: w :: ws else (c :: w) :: ws

/-- JavaScript `String.prototype.replace(pat, '')` with a string pattern:
removes the first occurrence of `pat`, if any. -/
def removeFirst (pat : List Char) : List Char → List Char
  | [] => []
  | c :: rest =>
    if pat.isPrefixOf (c :: rest) then (c :: rest).drop pat.length
    else c :: removeFirst pat rest

/-- Extension extraction in `splitMedia`: `fileName.split('.').pop()`. -/
def fileExt (fileName : String) : String :=
  ⟨(splitOnChar '.' fileName.data).getLastD []⟩

/-- Base-name computation in `splitMedia`:
`fileName.replace('.' + fileExt, '')`. -/
def baseName (fileName : String) : String :=
  ⟨removeFirst ('.' :: (fileExt fileName).data) fileName.data⟩

/-- Output artifact name for 1-based index `idx`:
the template literal `idx_baseName_idx.ext`. -/
def mkOutputName (idx : ℕ) (base ext : String) : String :=
  Nat.repr idx ++ "_" ++ base ++ "_" ++ Nat.repr idx ++ "." ++ ext

/-- The `encodingMode` state: `compatible` re-encodes, `fast` stream-copies. -/
inductive EncodingMode where
  | compatible
  | fast
deriving DecidableEq, Repr

/-- One element of the argument list passed to `ffmpeg.exec`: either a
literal flag string or a stringified number. -/
inductive FFArg where
  | str (s : String)
  | num (q : ℚ)
deriving DecidableEq, Repr

/-- The ffmpeg argument list `splitMedia` builds for one window: seek to
`start`, read `input`, take `dur` seconds, then either the stream-copy
flags (`fast`) or the re-encode flags (`compatible`), then the output
name. -/
def ffmpegArgs (mode : EncodingMode) (start dur : ℚ) (out : String) : List FFArg :=
  let base := [FFArg.str "-ss", FFArg.num start, FFArg.str "-i", FFArg.str "input",
    FFArg.str "-t", FFArg.num dur]
  let tail :=
    match mode with
    | .fast =>
      [FFArg.str "-c", FFArg.str "copy", FFArg.str "-avoid_negative_ts", FFArg.str "make_zero",
        FFArg.str "-movflags", FFArg.str "+faststart"]
    | .compatible =>
      [FFArg.str "-c:v", FFArg.str "libx264", FFArg.str "-preset", FFArg.str "fast",
        FFArg.str "-crf", FFArg.str "18", FFArg.str "-c:a", FFArg.str "aac",
        FFArg.str "-b:a", FFArg.str "192k", FFArg.str "-movflags", FFArg.str "+faststart",
        FFArg.str "-avoid_negative_ts", FFArg.str "make_zero"]
  base ++ tail ++ [FFArg.str out]

/-- The part count `currentParts` computed by `splitMedia` before the loop:
the chosen count in `parts` mode, `max(1, ceil(sizeMB / splitSize))` in
`size` mode, `max(1, ceil(duration / splitTime))` in `time` mode (the code
writes the floor-at-one as `if (currentParts < 1) currentParts = 1`). -/
def currentParts (duration sizeBytes : ℚ) : SplitSpec → ℤ
  | .parts count => (count : ℤ)
  | .bySize targetMB =>
    let totalSizeMB := sizeBytes / (1024 * 1024)
    let n := ⌈totalSizeMB / targetMB⌉
    if n < 1 then 1 else n
  | .byTime targetSeconds =>
    let n := ⌈duration / targetSeconds⌉
    if n < 1 then 1 else n

/-- The per-part duration `currentPartDuration` computed by `splitMedia`:
`duration / currentParts` in `parts` and `size` modes, `splitTime` in
`time` mode. -/
def currentPartDuration (duration sizeBytes : ℚ) : SplitSpec → ℚ
  | .byTime targetSeconds => targetSeconds
  | spec => duration / ((currentParts duration sizeBytes spec : ℤ) : ℚ)

/-- The planning loop of `splitMedia`, with loop index `i` and `k`
iterations remaining: `start = i * partDur`, `end = (i+1) * partDur`
clamped to `duration`, and `break` when the clamped duration is `≤ 0`. -/
def windowsFrom (duration partDur : ℚ) : ℕ → ℕ → List Window
  | 0, _ => []
  | k + 1, i =>
    let start := (i : ℚ) * partDur
    let e0 := ((i : ℚ) + 1) * partDur
    let e := if duration < e0 then duration else e0
    let d := e - start
    if d ≤ 0 then []
    else ⟨start, d⟩ :: windowsFrom duration partDur k (i + 1)

/-- The full window sequence the planning step of `splitMedia` produces. -/
def plan (duration sizeBytes : ℚ) (spec : SplitSpec) : List Window :=
  windowsFrom duration (currentPartDuration duration sizeBytes spec)
    (currentParts duration sizeBytes spec).toNat 0

/-- Output artifact: the `{ name, url }` record pushed onto `outputs`
(the blob contents are not modelled). -/
structure Artifact where
  name : String
deriving DecidableEq, Repr

/-- The user-facing error message set in the `catch` block of `splitMedia`. -/
def errorMessage : String := "An error occurred. Please check if the file format is valid."

/-- The sequential per-window loop of `splitMedia`: for each window it
first reports the status percentage `round(i / currentParts * 100)`, then
runs the engine (`engineOk i` says whether `ffmpeg.exec` succeeds for the
`i`-th call); on success it appends the artifact named with the 1-based
index and continues, on failure the exception aborts the loop.  Returns
the reported percentages in order and `some artifacts` on success or
`none` when an engine call threw. -/
def runSegments (engineOk : ℕ → Bool) (base ext : String) (total : ℚ) :
    List Window → ℕ → List ℤ × Option (List Artifact)
  | [], _ => ([], some [])
  | _w :: rest, i =>
    let pct := jsRound ((i : ℚ) / total * 100)
    if engineOk i then
      let r := runSegments engineOk base ext total rest (i + 1)
      (pct :: r.1, r.2.map (fun arts => Artifact.mk (mkOutputName (i + 1) base ext) :: arts))
    else ([pct], none)

/-- Observable outcome of one `splitMedia` run: the final `resultFiles`
state, the final `error` state (empty string when no error was set), and
the reported progress percentages (the per-window status percentages,
followed by the final `setProgress(100)` when the run completes). -/
structure SplitResult where
  resultFiles : List Artifact
  error : String
  events : List ℤ
deriving DecidableEq, Repr

/-- One run of `splitMedia` on a loaded file: computes extension and base
name, plans the windows, processes them sequentially, and either commits
`outputs` to `resultFiles` with progress `100`, or (when the engine threw)
leaves `resultFiles` empty — it was cleared at the start — and sets the
error message. -/
def splitMedia (fileName : String) (sizeBytes duration : ℚ) (spec : SplitSpec)
    (engineOk : ℕ → Bool) : SplitResult :=
  let ext := fileExt fileName
  let base := baseName fileName
  let n := currentParts duration sizeBytes spec
  let ws := plan duration sizeBytes spec
  let r := runSegments engineOk base ext (n : ℚ) ws 0
  match r.2 with
  | some arts => ⟨arts, "", r.1 ++ [100]⟩
  | none => ⟨[], errorMessage, r.1⟩

/-! ### Helper lemmas about the planning loop -/

/-- The window the planning loop emits at index `j`, before any
simplification: start `j * partDur`, end clamped to `duration`. -/
def winAt (duration partDur : ℚ) (j : ℕ) : Window :=
  ⟨(j : ℚ) * partDur, min (((j : ℚ) + 1) * partDur) duration - (j : ℚ) * partDur⟩

/-- When the part duration is positive and every window start below the
requested count is strictly before `duration`, the planning loop never
breaks and emits exactly the requested windows. -/
theorem windowsFrom_eq_map (duration partDur : ℚ) (hp : 0 < partDur) :
    ∀ (k i : ℕ), (∀ m, i ≤ m → m < i + k → (m : ℚ) * partDur < duration) →
      windowsFrom duration partDur k i =
        (List.range' i k).map (winAt duration partDur) := by
  intro k
  induction k with
  | zero => intro i _; rfl
  | succ n ih =>
    intro i H
    have h0 : (i : ℚ) * partDur < duration := H i le_rfl (by omega)
    have hite : (if duration < ((i : ℚ) + 1) * partDur then duration
        else ((i : ℚ) + 1) * partDur) = min (((i : ℚ) + 1) * partDur) duration := by
      rcases lt_or_le duration (((i : ℚ) + 1) * partDur) with h | h
      · rw [if_pos h, min_eq_right h.le]
      · rw [if_neg (not_lt.mpr h), min_eq_left h]
    have hpos : 0 < min (((i : ℚ) + 1) * partDur) duration - (i : ℚ) * partDur := by
      have hmin : (i : ℚ) * partDur < min (((i : ℚ) + 1) * partDur) duration := by
        refine lt_min ?_ h0
        nlinarith
      linarith
    have hrec : windowsFrom duration partDur n (i + 1) =
        (List.range' (i + 1) n).map (winAt duration partDur) := by
      refine ih (i + 1) ?_
      intro m hm1 hm2
      exact H m (by omega) (by omega)
    show (if (if duration < ((i : ℚ) + 1) * partDur then duration
        else ((i : ℚ) + 1) * partDur) - (i : ℚ) * partDur ≤ 0 then ([] : List Window)
      else ⟨(i : ℚ) * partDur, (if duration < ((i : ℚ) + 1) * partDur then duration
        else ((i : ℚ) + 1) * partDur) - (i : ℚ) * partDur⟩ ::
        windowsFrom duration partDur n (i + 1)) = _
    rw [hite, if_neg (by linarith), hrec, List.range'_succ, List.map_cons]
    rfl

/-- Hypotheses of `windowsFrom_eq_map` for the equal-division modes:
`n` windows of `duration / n` seconds each. -/
theorem divModeHyps (duration : ℚ) (n : ℕ) (hn : 1 ≤ n) (hd : 0 < duration) :
    0 < duration / (n : ℚ) ∧ (∀ j, j < n → (j : ℚ) * (duration / (n : ℚ)) < duration) ∧
      duration ≤ (n : ℚ) * (duration / (n : ℚ)) := by
  have hn0 : (0 : ℚ) < (n : ℚ) := by exact_mod_cast Nat.lt_of_lt_of_le Nat.zero_lt_one hn
  have hp : 0 < duration / (n : ℚ) := div_pos hd hn0
  have hkey : (n : ℚ) * (duration / (n : ℚ)) = duration := by
    field_simp
  refine ⟨hp, ?_, by rw [hkey]⟩
  intro j hj
  have hjn : (j : ℚ) < (n : ℚ) := by exact_mod_cast hj
  calc (j : ℚ) * (duration / (n : ℚ)) < (n : ℚ) * (duration / (n : ℚ)) :=
        mul_lt_mul_of_pos_right hjn hp
    _ = duration := hkey

/-- The floor-at-one guard in the source is the same as `max 1`. -/
theorem ite_lt_one_eq_max (n : ℤ) : (if n < 1 then 1 else n) = max 1 n := by
  rcases lt_or_le n 1 with h | h
  · rw [if_pos h, max_eq_left h.le]
  · rw [if_neg (not_lt.mpr h), max_eq_right h]

/-- For a valid spec and positive duration: the derived part count is at
least one, the part duration is positive, every non-final window start is
strictly before the total duration, and the requested span covers it. -/
theorem planHyps (duration sizeBytes : ℚ) (spec : SplitSpec)
    (hv : spec.Valid) (hd : 0 < duration) :
    1 ≤ currentParts duration sizeBytes spec ∧
      0 < currentPartDuration duration sizeBytes spec ∧
      (∀ j, j < (currentParts duration sizeBytes spec).toNat →
        (j : ℚ) * currentPartDuration duration sizeBytes spec < duration) ∧
      duration ≤ ((currentParts duration sizeBytes spec).toNat : ℚ) *
        currentPartDuration duration sizeBytes spec := by
  cases spec with
  | parts count =>
    have hc : 1 ≤ count := le_trans (by norm_num) hv
    have h := divModeHyps duration count hc hd
    have hN : currentParts duration sizeBytes (.parts count) = (count : ℤ) := rfl
    have hP : currentPartDuration duration sizeBytes (.parts count) = duration / (count : ℚ) := by
      simp [currentPartDuration, currentParts]
    refine ⟨by rw [hN]; exact_mod_cast hc, ?_, ?_, ?_⟩
    · rw [hP]; exact h.1
    · intro j hj
      rw [hP]
      exact h.2.1 j (by simpa [hN] using hj)
    · rw [hP, hN]
      simpa using h.2.2
  | bySize targetMB =>
    set N : ℤ := currentParts duration sizeBytes (.bySize targetMB) with hNdef
    have hN1 : 1 ≤ N := by
      rw [hNdef]
      show 1 ≤ (if ⌈sizeBytes / (1024 * 1024) / targetMB⌉ < 1 then 1
        else ⌈sizeBytes / (1024 * 1024) / targetMB⌉)
      split <;> omega
    have hNtoNat : ((N.toNat : ℕ) : ℚ) = (N : ℚ) := by
      have : ((N.toNat : ℤ) : ℚ) = (N : ℚ) := by
        rw [Int.toNat_of_nonneg (by omega)]
      push_cast at this ⊢
      exact this
    have hc : 1 ≤ N.toNat := by omega
    have h := divModeHyps duration N.toNat hc hd
    have hP : currentPartDuration duration sizeBytes (.bySize targetMB) =
        duration / ((N : ℤ) : ℚ) := by
      simp [currentPartDuration, hNdef]
    refine ⟨hN1, ?_, ?_, ?_⟩
    · rw [hP, ← hNtoNat]; exact h.1
    · intro j hj
      rw [hP, ← hNtoNat]
      exact h.2.1 j hj
    · rw [hP, ← hNtoNat]
      exact h.2.2
  | byTime targetSeconds =>
    have ht : (0 : ℚ) < targetSeconds := lt_of_lt_of_le (by norm_num) hv
    have hceil : 1 ≤ ⌈duration / targetSeconds⌉ := by
      have : (0 : ℚ) < duration / targetSeconds := div_pos hd ht
      exact Int.ceil_pos.mpr this
    have hN : currentParts duration sizeBytes (.byTime targetSeconds) =
        ⌈duration / targetSeconds⌉ := by
      show (if ⌈duration / targetSeconds⌉ < 1 then 1 else ⌈duration / targetSeconds⌉) = _
      rw [if_neg (by omega)]
    have hP : currentPartDuration duration sizeBytes (.byTime targetSeconds) = targetSeconds := rfl
    refine ⟨by rw [hN]; exact hceil, by rw [hP]; exact ht, ?_, ?_⟩
    · intro j hj
      rw [hP]
      have hjZ : (j : ℤ) < ⌈duration / targetSeconds⌉ := by
        rw [hN] at hj; omega
      have hjq : (j : ℚ) < duration / targetSeconds := by
        have h1 : ((j : ℤ) : ℚ) ≤ (⌈duration / targetSeconds⌉ : ℚ) - 1 := by
          have : (j : ℤ) + 1 ≤ ⌈duration / targetSeconds⌉ := hjZ
          push_cast
          exact_mod_cast by linarith [(by exact_mod_cast this : ((j : ℤ) : ℚ) + 1 ≤ (⌈duration / targetSeconds⌉ : ℚ))]
        have h2 : (⌈duration / targetSeconds⌉ : ℚ) < duration / targetSeconds + 1 :=
          Int.ceil_lt_add_one _
        push_cast at h1
        linarith
      calc (j : ℚ) * targetSeconds < (duration / targetSeconds) * targetSeconds :=
            mul_lt_mul_of_pos_right hjq ht
        _ = duration := div_mul_cancel₀ duration (ne_of_gt ht)
    · rw [hP, hN]
      have hle : duration / targetSeconds ≤ (⌈duration / targetSeconds⌉ : ℚ) := Int.le_ceil _
      have hcast : ((⌈duration / targetSeconds⌉.toNat : ℕ) : ℚ) =
          (⌈duration / targetSeconds⌉ : ℚ) := by
        have : ((⌈duration / targetSeconds⌉.toNat : ℤ) : ℚ) = (⌈duration / targetSeconds⌉ : ℚ) := by
          rw [Int.toNat_of_nonneg (by omega)]
        push_cast at this ⊢
        exact this
      rw [hcast]
      calc duration = (duration / targetSeconds) * targetSeconds :=
            (div_mul_cancel₀ duration (ne_of_gt ht)).symm
        _ ≤ (⌈duration / targetSeconds⌉ : ℚ) * targetSeconds :=
            mul_le_mul_of_nonneg_right hle ht.le

/-- For a valid spec and positive duration the plan is exactly the
requested count of consecutive clamped windows. -/
theorem plan_eq_map (duration sizeBytes : ℚ) (spec : SplitSpec)
    (hv : spec.Valid) (hd : 0 < duration) :
    plan duration sizeBytes spec =
      (List.range' 0 (currentParts duration sizeBytes spec).toNat).map
        (winAt duration (currentPartDuration duration sizeBytes spec)) := by
  obtain ⟨_hN, hp, hlt, _hle⟩ := planHyps duration sizeBytes spec hv hd
  rw [plan, windowsFrom_eq_map _ _ hp _ 0 (by intro m _ hm; exact hlt m (by omega))]

/-- Indexing a map over `List.range' 0 n` with a default. -/
theorem getD_map_range' {α : Type} (f : ℕ → α) (n i : ℕ) (dflt : α) (h : i < n) :
    ((List.range' 0 n).map f).getD i dflt = f i := by
  rw [List.getD_eq_getElem?_getD, List.getElem?_map, List.getElem?_range' 0 1 h]
  simp

/-- Length of the plan for a valid spec and positive duration. -/
theorem plan_length (duration sizeBytes : ℚ) (spec : SplitSpec)
    (hv : spec.Valid) (hd : 0 < duration) :
    (plan duration sizeBytes spec).length = (currentParts duration sizeBytes spec).toNat := by
  rw [plan_eq_map _ _ _ hv hd, List.length_map, List.length_range']

/-- Element of the plan for a valid spec and positive duration. -/
theorem plan_getD (duration sizeBytes : ℚ) (spec : SplitSpec)
    (hv : spec.Valid) (hd : 0 < duration) (i : ℕ)
    (hi : i < (currentParts duration sizeBytes spec).toNat) :
    (plan duration sizeBytes spec).getD i ⟨0, 0⟩ =
      winAt duration (currentPartDuration duration sizeBytes spec) i := by
  rw [plan_eq_map _ _ _ hv hd, getD_map_range' _ _ _ _ hi]

/-- The part count in `bySize` mode, written with `max`. -/
theorem currentParts_bySize (duration sizeBytes targetMB : ℚ) :
    currentParts duration sizeBytes (.bySize targetMB) =
      max 1 ⌈(sizeBytes / (1024 * 1024)) / targetMB⌉ := by
  show (if ⌈sizeBytes / (1024 * 1024) / targetMB⌉ < 1 then 1
    else ⌈sizeBytes / (1024 * 1024) / targetMB⌉) = _
  exact ite_lt_one_eq_max _

/-- The part count in `byTime` mode, written with `max`. -/
theorem currentParts_byTime (duration sizeBytes targetSeconds : ℚ) :
    currentParts duration sizeBytes (.byTime targetSeconds) =
      max 1 ⌈duration / targetSeconds⌉ := by
  show (if ⌈duration / targetSeconds⌉ < 1 then 1 else ⌈duration / targetSeconds⌉) = _
  exact ite_lt_one_eq_max _

/-- The part count in `parts` mode. -/
theorem currentParts_parts_toNat (duration sizeBytes : ℚ) (count : ℕ) :
    (currentParts duration sizeBytes (.parts count)).toNat = count := by
  simp [currentParts]

/-- The part duration in `parts` mode. -/
theorem currentPartDuration_parts (duration sizeBytes : ℚ) (count : ℕ) :
    currentPartDuration duration sizeBytes (.parts count) = duration / (count : ℚ) := by
  simp [currentPartDuration, currentParts]

/-- The part duration in `bySize` mode. -/
theorem currentPartDuration_bySize (duration sizeBytes targetMB : ℚ) :
    currentPartDuration duration sizeBytes (.bySize targetMB) =
      duration / ((max 1 ⌈(sizeBytes / (1024 * 1024)) / targetMB⌉ : ℤ) : ℚ) := by
  simp [currentPartDuration, currentParts_bySize]

/-- In the equal-division modes every emitted window has the full part
duration: the clamp never bites because `count * (duration / count) =
duration`. -/
theorem winAt_div (duration : ℚ) (count : ℕ) (hc : 1 ≤ count) (hd : 0 < duration)
    (i : ℕ) (hi : i < count) :
    winAt duration (duration / (count : ℚ)) i =
      ⟨(i : ℚ) * (duration / (count : ℚ)), duration / (count : ℚ)⟩ := by
  have hc0 : (0 : ℚ) < (count : ℚ) := by exact_mod_cast Nat.lt_of_lt_of_le Nat.zero_lt_one hc
  have hkey : (count : ℚ) * (duration / (count : ℚ)) = duration := by field_simp
  have hle : ((i : ℚ) + 1) * (duration / (count : ℚ)) ≤ duration := by
    have hi1 : (i : ℚ) + 1 ≤ (count : ℚ) := by exact_mod_cast hi
    calc ((i : ℚ) + 1) * (duration / (count : ℚ)) ≤ (count : ℚ) * (duration / (count : ℚ)) :=
          mul_le_mul_of_nonneg_right hi1 (le_of_lt (div_pos hd hc0))
      _ = duration := hkey
  rw [winAt, min_eq_left hle]
  congr 1
  ring

/-- C4 core equality, hypothesis-free: `bySize` mode computes a part count
from the byte size and then windows exactly like `parts` mode with that
count. -/
theorem plan_bySize_eq_plan_parts (duration sizeBytes targetMB : ℚ) :
    plan duration sizeBytes (.bySize targetMB) =
      plan duration sizeBytes
        (.parts (max 1 ⌈(sizeBytes / (1024 * 1024)) / targetMB⌉).toNat) := by
  set M : ℤ := max 1 ⌈(sizeBytes / (1024 * 1024)) / targetMB⌉ with hM
  have hM1 : 1 ≤ M := le_max_left _ _
  have hcast : ((M.toNat : ℕ) : ℚ) = ((M : ℤ) : ℚ) := by
    have h := Int.toNat_of_nonneg (by omega : (0 : ℤ) ≤ M)
    exact_mod_cast congrArg (fun z : ℤ => (z : ℚ)) h
  rw [plan, plan, currentParts_bySize, currentPartDuration_bySize,
    currentPartDuration_parts, currentParts_parts_toNat, ← hM, hcast]

/-! ### Claim theorems -/

/-- C1: for every valid split spec (Parts, BySize, or ByTime) and every
`totalDuration > 0`, the planned window sequence is non-empty, starts at
0, is contiguous and non-overlapping (`window[i].start + window[i].duration
= window[i+1].start`), has positive durations, and its last window ends at
`totalDuration` within the 1e-6 s tolerance. -/
theorem plan_windows_contiguous_cover (duration sizeBytes : ℚ) (spec : SplitSpec)
    (hv : spec.Valid) (hd : 0 < duration) :
    plan duration sizeBytes spec ≠ [] ∧
    ((plan duration sizeBytes spec).getD 0 ⟨0, 0⟩).start = 0 ∧
    (∀ i, i + 1 < (plan duration sizeBytes spec).length →
      ((plan duration sizeBytes spec).getD i ⟨0, 0⟩).start +
        ((plan duration sizeBytes spec).getD i ⟨0, 0⟩).duration =
        ((plan duration sizeBytes spec).getD (i + 1) ⟨0, 0⟩).start) ∧
    (∀ i, i < (plan duration sizeBytes spec).length →
      0 < ((plan duration sizeBytes spec).getD i ⟨0, 0⟩).duration) ∧
    |((plan duration sizeBytes spec).getD ((plan duration sizeBytes spec).length - 1)
        ⟨0, 0⟩).start +
      ((plan duration sizeBytes spec).getD ((plan duration sizeBytes spec).length - 1)
        ⟨0, 0⟩).duration - duration| ≤ 1 / 1000000 := by
  obtain ⟨hN, hp, hlt, hle⟩ := planHyps duration sizeBytes spec hv hd
  have hlen := plan_length duration sizeBytes spec hv hd
  set n : ℕ := (currentParts duration sizeBytes spec).toNat with hn
  set p : ℚ := currentPartDuration duration sizeBytes spec with hpdef
  have hn1 : 1 ≤ n := by omega
  refine ⟨?_, ?_, ?_, ?_, ?_⟩
  · intro hnil
    rw [hnil] at hlen
    simp at hlen
    omega
  · rw [plan_getD duration sizeBytes spec hv hd 0 (by omega), winAt]
    norm_num
  · intro i hi
    rw [hlen] at hi
    rw [plan_getD duration sizeBytes spec hv hd i (by omega),
      plan_getD duration sizeBytes spec hv hd (i + 1) (by omega), winAt, winAt]
    have hmin : min (((i : ℚ) + 1) * p) duration = ((i : ℚ) + 1) * p := by
      refine min_eq_left ?_
      have h := hlt (i + 1) (by omega)
      push_cast at h
      linarith
    rw [hmin]
    push_cast
    ring
  · intro i hi
    rw [hlen] at hi
    rw [plan_getD duration sizeBytes spec hv hd i hi, winAt]
    have h1 : (i : ℚ) * p < ((i : ℚ) + 1) * p := by nlinarith
    have h2 : (i : ℚ) * p < duration := hlt i hi
    have : (i : ℚ) * p < min (((i : ℚ) + 1) * p) duration := lt_min h1 h2
    dsimp only
    linarith
  · rw [hlen, plan_getD duration sizeBytes spec hv hd (n - 1) (by omega), winAt]
    have hcast : ((n - 1 : ℕ) : ℚ) + 1 = (n : ℚ) := by
      have : ((n - 1 : ℕ) : ℚ) = (n : ℚ) - 1 := by
        push_cast [Nat.cast_sub hn1]
        ring
      rw [this]
      ring
    rw [hcast]
    have hmin : min ((n : ℚ) * p) duration = duration := min_eq_right hle
    rw [hmin]
    dsimp only
    rw [abs_le]
    constructor <;> [linarith; linarith]

/-- C1 witness: a concrete instance with hypotheses discharged. -/
theorem plan_windows_contiguous_cover_witness :
    (SplitSpec.parts 4).Valid ∧ (0 : ℚ) < 100 ∧
      (plan 100 1000 (.parts 4) ≠ [] ∧
        ((plan 100 1000 (.parts 4)).getD 0 ⟨0, 0⟩).start = 0 ∧
        (∀ i, i + 1 < (plan 100 1000 (.parts 4)).length →
          ((plan 100 1000 (.parts 4)).getD i ⟨0, 0⟩).start +
            ((plan 100 1000 (.parts 4)).getD i ⟨0, 0⟩).duration =
            ((plan 100 1000 (.parts 4)).getD (i + 1) ⟨0, 0⟩).start) ∧
        (∀ i, i < (plan 100 1000 (.parts 4)).length →
          0 < ((plan 100 1000 (.parts 4)).getD i ⟨0, 0⟩).duration) ∧
        |((plan 100 1000 (.parts 4)).getD ((plan 100 1000 (.parts 4)).length - 1)
            ⟨0, 0⟩).start +
          ((plan 100 1000 (.parts 4)).getD ((plan 100 1000 (.parts 4)).length - 1)
            ⟨0, 0⟩).duration - 100| ≤ 1 / 1000000) :=
  ⟨by norm_num [SplitSpec.Valid], by norm_num,
    plan_windows_contiguous_cover 100 1000 (.parts 4) (by norm_num [SplitSpec.Valid])
      (by norm_num)⟩

/-- C2: for every `count ≥ 2` and `totalDuration > 0`, Parts mode plans
exactly `count` windows; window `i` starts at `i * (totalDuration/count)`
with duration `totalDuration/count > 0`; the final window ends exactly at
`totalDuration`; and the durations sum to `totalDuration` within 1e-6 s. -/
theorem plan_parts_count_windows (count : ℕ) (duration sizeBytes : ℚ)
    (hc : 2 ≤ count) (hd : 0 < duration) :
    (plan duration sizeBytes (.parts count)).length = count ∧
    (∀ i, i < count →
      (plan duration sizeBytes (.parts count)).getD i ⟨0, 0⟩ =
        ⟨(i : ℚ) * (duration / (count : ℚ)), duration / (count : ℚ)⟩) ∧
    (∀ i, i < count →
      0 < ((plan duration sizeBytes (.parts count)).getD i ⟨0, 0⟩).duration) ∧
    ((plan duration sizeBytes (.parts count)).getD (count - 1) ⟨0, 0⟩).start +
      ((plan duration sizeBytes (.parts count)).getD (count - 1) ⟨0, 0⟩).duration =
      duration ∧
    |((plan duration sizeBytes (.parts count)).map Window.duration).sum - duration| ≤
      1 / 1000000 := by
  have hv : (SplitSpec.parts count).Valid := hc
  have hc1 : 1 ≤ count := by omega
  have hc0 : (0 : ℚ) < (count : ℚ) := by exact_mod_cast Nat.lt_of_lt_of_le Nat.zero_lt_one hc1
  have hp0 : 0 < duration / (count : ℚ) := div_pos hd hc0
  have hkey : (count : ℚ) * (duration / (count : ℚ)) = duration := by field_simp
  have hlen : (plan duration sizeBytes (.parts count)).length = count := by
    rw [plan_length duration sizeBytes _ hv hd, currentParts_parts_toNat]
  have hget : ∀ i, i < count →
      (plan duration sizeBytes (.parts count)).getD i ⟨0, 0⟩ =
        ⟨(i : ℚ) * (duration / (count : ℚ)), duration / (count : ℚ)⟩ := by
    intro i hi
    rw [plan_getD duration sizeBytes _ hv hd i
      (by rw [currentParts_parts_toNat]; exact hi), currentPartDuration_parts,
      winAt_div duration count hc1 hd i hi]
  refine ⟨hlen, hget, ?_, ?_, ?_⟩
  · intro i hi
    rw [hget i hi]
    exact hp0
  · rw [hget (count - 1) (by omega)]
    have hcast : ((count - 1 : ℕ) : ℚ) = (count : ℚ) - 1 := by
      push_cast [Nat.cast_sub hc1]
      ring
    dsimp only
    rw [hcast]
    calc ((count : ℚ) - 1) * (duration / (count : ℚ)) + duration / (count : ℚ)
        = (count : ℚ) * (duration / (count : ℚ)) := by ring
      _ = duration := hkey
  · rw [plan_eq_map duration sizeBytes _ hv hd, List.map_map]
    have hmapc : (List.range' 0 (currentParts duration sizeBytes (.parts count)).toNat).map
        (Window.duration ∘ winAt duration (currentPartDuration duration sizeBytes (.parts count))) =
        (List.range' 0 (currentParts duration sizeBytes (.parts count)).toNat).map
          (fun _ => duration / (count : ℚ)) := by
      refine List.map_congr_left ?_
      intro j hj
      rw [List.mem_range'_1, currentParts_parts_toNat] at hj
      show (winAt duration (currentPartDuration duration sizeBytes (.parts count)) j).duration = _
      rw [currentPartDuration_parts, winAt_div duration count hc1 hd j (by omega)]
    rw [hmapc, List.map_const', List.length_range', currentParts_parts_toNat,
      List.sum_replicate, nsmul_eq_mul, hkey]
    norm_num

/-- C2 witness: `Parts 4` over a 100-second file. -/
theorem plan_parts_count_windows_witness :
    2 ≤ 4 ∧ (0 : ℚ) < 100 ∧ (plan 100 1000 (.parts 4)).length = 4 :=
  ⟨by norm_num, by norm_num,
    (plan_parts_count_windows 4 100 1000 (by norm_num) (by norm_num)).1⟩

/-- C3: for every `targetSeconds ≥ 10` and `totalDuration > 0`, ByTime
mode plans exactly `max 1 ⌈totalDuration/targetSeconds⌉` windows; every
window but the last has duration `targetSeconds`; the last duration is
the remaining time; and `totalDuration = 95`, `targetSeconds = 30` gives
the windows `[0,30],[30,30],[60,30],[90,5]`. -/
theorem plan_byTime_windows (targetSeconds duration sizeBytes : ℚ)
    (ht : 10 ≤ targetSeconds) (hd : 0 < duration) :
    (plan duration sizeBytes (.byTime targetSeconds)).length =
      (max 1 ⌈duration / targetSeconds⌉).toNat ∧
    (∀ i, i + 1 < (plan duration sizeBytes (.byTime targetSeconds)).length →
      (plan duration sizeBytes (.byTime targetSeconds)).getD i ⟨0, 0⟩ =
        ⟨(i : ℚ) * targetSeconds, targetSeconds⟩) ∧
    ((plan duration sizeBytes (.byTime targetSeconds)).getD
        ((plan duration sizeBytes (.byTime targetSeconds)).length - 1) ⟨0, 0⟩).duration =
      duration -
        (((plan duration sizeBytes (.byTime targetSeconds)).length - 1 : ℕ) : ℚ) *
          targetSeconds ∧
    plan 95 sizeBytes (.byTime 30) = [⟨0, 30⟩, ⟨30, 30⟩, ⟨60, 30⟩, ⟨90, 5⟩] := by
  have hv : (SplitSpec.byTime targetSeconds).Valid := ht
  obtain ⟨hN, hp, hlt, hle⟩ := planHyps duration sizeBytes (.byTime targetSeconds) hv hd
  have hpt : currentPartDuration duration sizeBytes (.byTime targetSeconds) = targetSeconds := rfl
  have hlen : (plan duration sizeBytes (.byTime targetSeconds)).length =
      (currentParts duration sizeBytes (.byTime targetSeconds)).toNat :=
    plan_length duration sizeBytes _ hv hd
  set n : ℕ := (currentParts duration sizeBytes (.byTime targetSeconds)).toNat with hn
  have hn1 : 1 ≤ n := by omega
  refine ⟨by rw [hlen, hn, currentParts_byTime], ?_, ?_, ?_⟩
  · intro i hi
    rw [hlen] at hi
    rw [plan_getD duration sizeBytes _ hv hd i (by omega), hpt, winAt]
    have hmin : min (((i : ℚ) + 1) * targetSeconds) duration = ((i : ℚ) + 1) * targetSeconds := by
      refine min_eq_left ?_
      have h := hlt (i + 1) (by omega)
      rw [hpt] at h
      push_cast at h
      linarith
    rw [hmin]
    congr 1
    ring
  · rw [hlen, plan_getD duration sizeBytes _ hv hd (n - 1) (by omega), hpt, winAt]
    have hcast : ((n - 1 : ℕ) : ℚ) + 1 = (n : ℚ) := by
      have h : ((n - 1 : ℕ) : ℚ) = (n : ℚ) - 1 := by
        push_cast [Nat.cast_sub hn1]
        ring
      rw [h]
      ring
    rw [hpt] at hle
    dsimp only
    rw [hcast, min_eq_right hle]
  · have hc4 : (⌈(19 : ℚ) / 6⌉ : ℤ) = 4 := by norm_num [Int.ceil_eq_iff]
    norm_num [plan, currentParts, currentPartDuration, hc4, windowsFrom]

/-- C3 witness: the 95-second, 30-second-target instance. -/
theorem plan_byTime_windows_witness :
    (10 : ℚ) ≤ 30 ∧ (0 : ℚ) < 95 ∧
      (plan 95 1000 (.byTime 30)).length = (max 1 ⌈(95 : ℚ) / 30⌉).toNat :=
  ⟨by norm_num, by norm_num,
    (plan_byTime_windows 30 95 1000 (by norm_num) (by norm_num)).1⟩

/-- C4: BySize mode produces exactly the window sequence of Parts mode
with the derived count `max 1 ⌈(totalSizeBytes/1MB)/targetMB⌉`; in
particular a 50 MB input with `targetMB = 10` derives part count 5 and
windows identical to `Parts 5`. -/
theorem plan_bySize_eq_parts (targetMB sizeBytes duration : ℚ)
    (hm : 1 ≤ targetMB) (hd : 0 < duration) :
    plan duration sizeBytes (.bySize targetMB) =
      plan duration sizeBytes
        (.parts (max 1 ⌈(sizeBytes / (1024 * 1024)) / targetMB⌉).toNat) ∧
    (max 1 ⌈((50 * 1024 * 1024 : ℚ) / (1024 * 1024)) / 10⌉).toNat = 5 ∧
    plan duration (50 * 1024 * 1024) (.bySize 10) =
      plan duration (50 * 1024 * 1024) (.parts 5) := by
  have h5 : (⌈((50 * 1024 * 1024 : ℚ) / (1024 * 1024)) / 10⌉ : ℤ) = 5 := by
    norm_num [Int.ceil_eq_iff]
  have hmax5 : (max 1 ⌈((50 * 1024 * 1024 : ℚ) / (1024 * 1024)) / 10⌉).toNat = 5 := by
    rw [h5]
    rfl
  refine ⟨plan_bySize_eq_plan_parts duration sizeBytes targetMB, hmax5, ?_⟩
  rw [plan_bySize_eq_plan_parts duration (50 * 1024 * 1024) 10, hmax5]

/-- C4 witness: a concrete instance with the hypotheses discharged. -/
theorem plan_bySize_eq_parts_witness :
    (1 : ℚ) ≤ 10 ∧ (0 : ℚ) < 100 ∧
      plan 100 (50 * 1024 * 1024) (.bySize 10) = plan 100 (50 * 1024 * 1024) (.parts 5) :=
  ⟨by norm_num, by norm_num,
    (plan_bySize_eq_parts 10 (50 * 1024 * 1024) 100 (by norm_num) (by norm_num)).2.2⟩

/-! ### Helper lemmas about the processing loop -/

/-- When every engine call succeeds, the loop reports one percentage per
window and returns one artifact per window, named with the 1-based index. -/
theorem runSegments_ok (engineOk : ℕ → Bool) (base ext : String) (total : ℚ)
    (hok : ∀ i, engineOk i = true) :
    ∀ (ws : List Window) (i : ℕ),
      runSegments engineOk base ext total ws i =
        ((List.range' i ws.length).map (fun (j : ℕ) => jsRound ((j : ℚ) / total * 100)),
          some ((List.range' i ws.length).map
            (fun (j : ℕ) => Artifact.mk (mkOutputName (j + 1) base ext)))) := by
  intro ws
  induction ws with
  | nil => intro i; rfl
  | cons w rest ih =>
    intro i
    simp only [runSegments, hok i, if_true, ih (i + 1), List.length_cons, List.range'_succ,
      List.map_cons, Option.map_some']

/-- When the first engine failure happens at index `k` (which exists among
the windows), the loop reports the percentages for indices `0..k` exactly
once each and returns no artifacts. -/
theorem runSegments_err (engineOk : ℕ → Bool) (base ext : String) (total : ℚ) :
    ∀ (k : ℕ) (ws : List Window) (i : ℕ), k < ws.length →
      engineOk (i + k) = false → (∀ j, j < k → engineOk (i + j) = true) →
      runSegments engineOk base ext total ws i =
        ((List.range' i (k + 1)).map (fun (j : ℕ) => jsRound ((j : ℚ) / total * 100)), none) := by
  intro k
  induction k with
  | zero =>
    intro ws i hlen hf _
    cases ws with
    | nil => simp at hlen
    | cons w rest =>
      have hf' : engineOk i = false := by simpa using hf
      simp [runSegments, hf']
  | succ n ih =>
    intro ws i hlen hf hpre
    cases ws with
    | nil => simp at hlen
    | cons w rest =>
      have h0 : engineOk i = true := by simpa using hpre 0 n.succ_pos
      have hrec := ih rest (i + 1) (by simpa using hlen)
        (by rw [show i + 1 + n = i + (n + 1) by omega]; exact hf)
        (by intro j hj
            rw [show i + 1 + j = i + (j + 1) by omega]
            exact hpre (j + 1) (by omega))
      simp only [runSegments, h0, if_true, hrec, List.range'_succ, List.map_cons,
        Option.map_none']

/-- A fully successful run: artifacts and percentages per window, final
progress 100, no error. -/
theorem splitMedia_ok (fileName : String) (sizeBytes duration : ℚ) (spec : SplitSpec)
    (engineOk : ℕ → Bool) (hok : ∀ i, engineOk i = true) :
    splitMedia fileName sizeBytes duration spec engineOk =
      ⟨(List.range' 0 (plan duration sizeBytes spec).length).map
          (fun (j : ℕ) => Artifact.mk (mkOutputName (j + 1) (baseName fileName) (fileExt fileName))),
        "",
        ((List.range' 0 (plan duration sizeBytes spec).length).map
          (fun (j : ℕ) => jsRound ((j : ℚ) /
            ((currentParts duration sizeBytes spec : ℤ) : ℚ) * 100))) ++ [100]⟩ := by
  simp only [splitMedia,
    runSegments_ok engineOk (baseName fileName) (fileExt fileName)
      ((currentParts duration sizeBytes spec : ℤ) : ℚ) hok (plan duration sizeBytes spec) 0]

/-- A run whose first engine failure is at window `k`: empty result set,
the catch-block error message, and the percentages for `0..k` only. -/
theorem splitMedia_err (fileName : String) (sizeBytes duration : ℚ) (spec : SplitSpec)
    (engineOk : ℕ → Bool) (k : ℕ)
    (hk : k < (plan duration sizeBytes spec).length)
    (hf : engineOk k = false) (hpre : ∀ j, j < k → engineOk j = true) :
    splitMedia fileName sizeBytes duration spec engineOk =
      ⟨[], errorMessage,
        (List.range' 0 (k + 1)).map
          (fun (j : ℕ) => jsRound ((j : ℚ) /
            ((currentParts duration sizeBytes spec : ℤ) : ℚ) * 100))⟩ := by
  have herr := runSegments_err engineOk (baseName fileName) (fileExt fileName)
    ((currentParts duration sizeBytes spec : ℤ) : ℚ) k (plan duration sizeBytes spec) 0 hk
    (by simpa using hf) (by intro j hj; simpa using hpre j hj)
  simp only [splitMedia, herr]

/-- On a zero duration the very first window is clamped to zero length, so
the planning loop breaks immediately whatever the spec. -/
theorem windowsFrom_zero (partDur : ℚ) (k : ℕ) : windowsFrom 0 partDur k 0 = [] := by
  cases k with
  | zero => rfl
  | succ n =>
    have hcond : (if (0 : ℚ) < ((0 : ℕ) : ℚ) * partDur + partDur then (0 : ℚ)
        else ((0 : ℕ) : ℚ) * partDur + partDur) - ((0 : ℕ) : ℚ) * partDur ≤ 0 := by
      norm_num
      rcases lt_or_le 0 partDur with h | h
      · rw [if_pos h]
      · rw [if_neg (not_lt.mpr h)]
        exact h
    show (if (if (0 : ℚ) < (((0 : ℕ) : ℚ) + 1) * partDur then (0 : ℚ)
        else (((0 : ℕ) : ℚ) + 1) * partDur) - ((0 : ℕ) : ℚ) * partDur ≤ 0 then ([] : List Window)
      else _) = []
    rw [if_pos (by rw [add_mul, one_mul]; exact hcond)]

/-- The plan for a zero total duration is empty in every mode. -/
theorem plan_zero_duration (sizeBytes : ℚ) (spec : SplitSpec) :
    plan 0 sizeBytes spec = [] := by
  rw [plan, windowsFrom_zero]

/-! ### Helper lemmas about the name computations -/

/-- Splitting on a character that does not occur yields the whole list. -/
theorem splitOnChar_no_sep (sep : Char) (l : List Char) (h : sep ∉ l) :
    splitOnChar sep l = [l] := by
  induction l with
  | nil => rfl
  | cons c rest ih =>
    have hc : ¬(c = sep) := by
      intro he
      exact h (he ▸ List.mem_cons_self c rest)
    have hrest : sep ∉ rest := fun hm => h (List.mem_cons_of_mem _ hm)
    simp only [splitOnChar, ih hrest, if_neg hc]

/-- A pattern that matches at the head of a list is no longer than it. -/
theorem length_le_of_isPrefixOf (pat : List Char) :
    ∀ l : List Char, pat.isPrefixOf l = true → pat.length ≤ l.length := by
  induction pat with
  | nil => intro l _; simp
  | cons p ps ih =>
    intro l h
    cases l with
    | nil => simp [List.isPrefixOf] at h
    | cons c cs =>
      simp only [List.isPrefixOf, Bool.and_eq_true] at h
      have := ih cs h.2
      simp only [List.length_cons]
      omega

/-- Removing a pattern longer than the string leaves it unchanged. -/
theorem removeFirst_longer (pat : List Char) :
    ∀ l : List Char, l.length < pat.length → removeFirst pat l = l := by
  intro l
  induction l with
  | nil => intro _; rfl
  | cons c rest ih =>
    intro h
    have hnp : pat.isPrefixOf (c :: rest) = false := by
      cases hb : pat.isPrefixOf (c :: rest) with
      | false => rfl
      | true =>
        exfalso
        have := length_le_of_isPrefixOf pat (c :: rest) hb
        omega
    simp only [removeFirst, hnp, Bool.false_eq_true, if_false]
    rw [ih (by simp at h ⊢; omega)]

/-- For a file name with no dot, `split('.').pop()` is the whole name. -/
theorem fileExt_no_dot (fileName : String) (h : '.' ∉ fileName.data) :
    fileExt fileName = fileName := by
  rw [fileExt, splitOnChar_no_sep '.' fileName.data h]
  show (⟨fileName.data⟩ : String) = fileName
  cases fileName
  rfl

/-- For a file name with no dot, the replace-based base name is unchanged:
the pattern `'.' + fileName` is longer than the name itself. -/
theorem baseName_no_dot (fileName : String) (h : '.' ∉ fileName.data) :
    baseName fileName = fileName := by
  rw [baseName, fileExt_no_dot fileName h,
    removeFirst_longer _ fileName.data (by simp)]

/-- Shared naming lemma: in a fully successful run the `k`-th artifact is
named with the 1-based index as both prefix and suffix around the computed
base name and extension. -/
theorem splitMedia_name_getD (fileName : String) (sizeBytes duration : ℚ)
    (spec : SplitSpec) (engineOk : ℕ → Bool) (k : ℕ)
    (hok : ∀ i, engineOk i = true)
    (hk : k < (splitMedia fileName sizeBytes duration spec engineOk).resultFiles.length) :
    ((splitMedia fileName sizeBytes duration spec engineOk).resultFiles.getD k ⟨""⟩).name =
      Nat.repr (k + 1) ++ "_" ++ baseName fileName ++ "_" ++ Nat.repr (k + 1) ++ "." ++
        fileExt fileName := by
  rw [splitMedia_ok fileName sizeBytes duration spec engineOk hok] at hk ⊢
  dsimp only at hk ⊢
  rw [List.length_map, List.length_range'] at hk
  rw [getD_map_range' _ _ _ _ hk]
  rfl

/-- C5 counterexample: at `totalDuration = 0` the run sets no error at
all (the error state stays `""`), commits an empty result set and reports
completion with progress `100` — it does not signal any `EmptyInput`
error to the caller; no such error exists in the code. -/
theorem splitMedia_zero_duration_counterexample :
    (splitMedia "a.mp4" 100 0 (.parts 2) (fun _ => true)).error = "" ∧
    (splitMedia "a.mp4" 100 0 (.parts 2) (fun _ => true)).resultFiles = [] ∧
    (splitMedia "a.mp4" 100 0 (.parts 2) (fun _ => true)).events = [100] := by
  norm_num [splitMedia, plan, currentParts, currentPartDuration, windowsFrom, runSegments]

/-- C5 (amended): for every spec and size, a zero `totalDuration` makes
the planning step produce an empty window sequence, and the operation then
completes silently — empty result set, no error signaled (error state
stays `""`), progress set to 100 — rather than raising any error. -/
theorem splitMedia_zero_duration_silent (fileName : String) (sizeBytes : ℚ)
    (spec : SplitSpec) (engineOk : ℕ → Bool) :
    plan 0 sizeBytes spec = [] ∧
    splitMedia fileName sizeBytes 0 spec engineOk = ⟨[], "", [100]⟩ := by
  refine ⟨plan_zero_duration sizeBytes spec, ?_⟩
  simp only [splitMedia, plan_zero_duration sizeBytes spec, runSegments]
  rfl

/-- C6: whenever the engine first fails at some window `k` of the plan,
the whole run aborts: the final result set is empty (artifacts already
produced for windows before `k` are discarded), the single user-facing
error message is set, and the reported percentages stop at window `k` with
exactly one attempt per window — no retry. -/
theorem splitMedia_segment_failure_aborts (fileName : String) (sizeBytes duration : ℚ)
    (spec : SplitSpec) (engineOk : ℕ → Bool) (k : ℕ)
    (hk : k < (plan duration sizeBytes spec).length)
    (hf : engineOk k = false) (hpre : ∀ j, j < k → engineOk j = true) :
    (splitMedia fileName sizeBytes duration spec engineOk).resultFiles = [] ∧
    (splitMedia fileName sizeBytes duration spec engineOk).error = errorMessage ∧
    (splitMedia fileName sizeBytes duration spec engineOk).events =
      (List.range' 0 (k + 1)).map
        (fun (j : ℕ) => jsRound ((j : ℚ) /
          ((currentParts duration sizeBytes spec : ℤ) : ℚ) * 100)) := by
  rw [splitMedia_err fileName sizeBytes duration spec engineOk k hk hf hpre]
  exact ⟨rfl, rfl, rfl⟩

/-- C6 witness: a 90-second `Parts 3` run whose engine fails on the second
window (index 1) ends with zero artifacts, the error message, and only the
two percentages 0 and 33 reported. -/
theorem splitMedia_segment_failure_aborts_witness :
    1 < (plan 90 100 (.parts 3)).length ∧
    (splitMedia "a.mp4" 100 90 (.parts 3) (fun i => i != 1)).resultFiles = [] ∧
    (splitMedia "a.mp4" 100 90 (.parts 3) (fun i => i != 1)).error = errorMessage ∧
    (splitMedia "a.mp4" 100 90 (.parts 3) (fun i => i != 1)).events = [0, 33] := by
  have hlen : 1 < (plan 90 100 (.parts 3)).length := by
    norm_num [plan, currentParts, currentPartDuration, windowsFrom]
  have h := splitMedia_segment_failure_aborts "a.mp4" 100 90 (.parts 3)
    (fun i => i != 1) 1 hlen rfl (by decide)
  refine ⟨hlen, h.1, h.2.1, ?_⟩
  rw [h.2.2, show currentParts 90 100 (.parts 3) = (3 : ℤ) from rfl,
    show List.range' 0 (1 + 1) = [0, 1] from rfl]
  norm_num [jsRound, Int.floor_eq_iff]

/-- C7: in a fully successful run over a valid spec with positive
duration, on entering window `i` the reported percentage is
`round(i / N * 100)` (with `N` the planned part count), followed by the
final 100; in particular a successful `Parts 2` run reports exactly
`0, 50, 100`. -/
theorem splitMedia_progress_events (fileName : String) (sizeBytes duration : ℚ)
    (spec : SplitSpec) (engineOk : ℕ → Bool)
    (hv : spec.Valid) (hd : 0 < duration) (hok : ∀ i, engineOk i = true) :
    (splitMedia fileName sizeBytes duration spec engineOk).events =
      ((List.range' 0 (currentParts duration sizeBytes spec).toNat).map
        (fun (i : ℕ) => jsRound ((i : ℚ) /
          ((currentParts duration sizeBytes spec : ℤ) : ℚ) * 100))) ++ [100] ∧
    (splitMedia fileName sizeBytes duration (.parts 2) engineOk).events = [0, 50, 100] := by
  constructor
  · rw [splitMedia_ok fileName sizeBytes duration spec engineOk hok]
    dsimp only
    rw [plan_length duration sizeBytes spec hv hd]
  · have hv2 : (SplitSpec.parts 2).Valid := by norm_num [SplitSpec.Valid]
    rw [splitMedia_ok fileName sizeBytes duration (.parts 2) engineOk hok]
    dsimp only
    rw [plan_length duration sizeBytes (.parts 2) hv2 hd,
      show currentParts duration sizeBytes (.parts 2) = (2 : ℤ) from rfl,
      show ((2 : ℤ)).toNat = 2 from rfl,
      show List.range' 0 2 = [0, 1] from rfl]
    norm_num [jsRound, Int.floor_eq_iff]

/-- C7 witness: the 2-minute `Parts 2` run with an always-succeeding
engine reports exactly `0, 50, 100`. -/
theorem splitMedia_progress_events_witness :
    (SplitSpec.parts 2).Valid ∧ (0 : ℚ) < 120 ∧
      (splitMedia "a.mp4" 100 120 (.parts 2) (fun _ => true)).events = [0, 50, 100] :=
  ⟨by norm_num [SplitSpec.Valid], by norm_num,
    (splitMedia_progress_events "a.mp4" 100 120 (.parts 2) (fun _ => true)
      (by norm_num [SplitSpec.Valid]) (by norm_num) (fun _ => rfl)).2⟩

/-- C8: for every window, the stream-copy (`fast`) command contains the
seek flag `-ss` followed by the window start, the duration flag `-t`
followed by the window duration, the verbatim-copy flags `-c copy`, the
timestamp normalization `-avoid_negative_ts make_zero`, and the fast-start
flag `-movflags +faststart`. -/
theorem ffmpegArgs_streamCopy_flags (w : Window) (out : String) :
    [FFArg.str "-ss", FFArg.num w.start] <:+: ffmpegArgs .fast w.start w.duration out ∧
    [FFArg.str "-t", FFArg.num w.duration] <:+: ffmpegArgs .fast w.start w.duration out ∧
    [FFArg.str "-c", FFArg.str "copy"] <:+: ffmpegArgs .fast w.start w.duration out ∧
    [FFArg.str "-avoid_negative_ts", FFArg.str "make_zero"] <:+:
      ffmpegArgs .fast w.start w.duration out ∧
    [FFArg.str "-movflags", FFArg.str "+faststart"] <:+:
      ffmpegArgs .fast w.start w.duration out := by
  refine ⟨⟨[], [FFArg.str "-i", FFArg.str "input", FFArg.str "-t", FFArg.num w.duration,
      FFArg.str "-c", FFArg.str "copy", FFArg.str "-avoid_negative_ts", FFArg.str "make_zero",
      FFArg.str "-movflags", FFArg.str "+faststart", FFArg.str out], rfl⟩,
    ⟨[FFArg.str "-ss", FFArg.num w.start, FFArg.str "-i", FFArg.str "input"],
      [FFArg.str "-c", FFArg.str "copy", FFArg.str "-avoid_negative_ts", FFArg.str "make_zero",
        FFArg.str "-movflags", FFArg.str "+faststart", FFArg.str out], rfl⟩,
    ⟨[FFArg.str "-ss", FFArg.num w.start, FFArg.str "-i", FFArg.str "input",
        FFArg.str "-t", FFArg.num w.duration],
      [FFArg.str "-avoid_negative_ts", FFArg.str "make_zero",
        FFArg.str "-movflags", FFArg.str "+faststart", FFArg.str out], rfl⟩,
    ⟨[FFArg.str "-ss", FFArg.num w.start, FFArg.str "-i", FFArg.str "input",
        FFArg.str "-t", FFArg.num w.duration, FFArg.str "-c", FFArg.str "copy"],
      [FFArg.str "-movflags", FFArg.str "+faststart", FFArg.str out], rfl⟩,
    ⟨[FFArg.str "-ss", FFArg.num w.start, FFArg.str "-i", FFArg.str "input",
        FFArg.str "-t", FFArg.num w.duration, FFArg.str "-c", FFArg.str "copy",
        FFArg.str "-avoid_negative_ts", FFArg.str "make_zero"],
      [FFArg.str out], rfl⟩⟩

/-- C9: in a fully successful run, the `k`-th artifact (0-indexed) is
named `{k+1}_{baseName}_{k+1}.{ext}`, with the 1-based index appearing
both as prefix and as suffix. -/
theorem splitMedia_artifact_names (fileName : String) (sizeBytes duration : ℚ)
    (spec : SplitSpec) (engineOk : ℕ → Bool) (k : ℕ)
    (hok : ∀ i, engineOk i = true)
    (hk : k < (splitMedia fileName sizeBytes duration spec engineOk).resultFiles.length) :
    ((splitMedia fileName sizeBytes duration spec engineOk).resultFiles.getD k ⟨""⟩).name =
      Nat.repr (k + 1) ++ "_" ++ baseName fileName ++ "_" ++ Nat.repr (k + 1) ++ "." ++
        fileExt fileName :=
  splitMedia_name_getD fileName sizeBytes duration spec engineOk k hok hk

/-- C9 witness: splitting `video.mp4` in two, the first artifact is named
`1_video_1.mp4`. -/
theorem splitMedia_artifact_names_witness :
    0 < (splitMedia "video.mp4" 100 10 (.parts 2) (fun _ => true)).resultFiles.length ∧
    ((splitMedia "video.mp4" 100 10 (.parts 2)
        (fun _ => true)).resultFiles.getD 0 ⟨""⟩).name = "1_video_1.mp4" := by
  have hlen : 0 < (splitMedia "video.mp4" 100 10 (.parts 2)
      (fun _ => true)).resultFiles.length := by
    norm_num [splitMedia, plan, currentParts, currentPartDuration, windowsFrom, runSegments]
  have h := splitMedia_artifact_names "video.mp4" 100 10 (.parts 2) (fun _ => true) 0
    (fun _ => rfl) hlen
  exact ⟨hlen, h.trans (by decide)⟩

/-- C10: for an input file name with no dot, the extension extraction
returns the whole name, the base-name computation leaves it unchanged, and
the `k`-th artifact of a successful run is named
`{k+1}_{fileName}_{k+1}.{fileName}` — the whole input name duplicated as a
fake extension. -/
theorem splitMedia_dotless_names (fileName : String) (sizeBytes duration : ℚ)
    (spec : SplitSpec) (engineOk : ℕ → Bool) (k : ℕ)
    (hdot : '.' ∉ fileName.data) (hok : ∀ i, engineOk i = true)
    (hk : k < (splitMedia fileName sizeBytes duration spec engineOk).resultFiles.length) :
    fileExt fileName = fileName ∧ baseName fileName = fileName ∧
    ((splitMedia fileName sizeBytes duration spec engineOk).resultFiles.getD k ⟨""⟩).name =
      Nat.repr (k + 1) ++ "_" ++ fileName ++ "_" ++ Nat.repr (k + 1) ++ "." ++ fileName := by
  refine ⟨fileExt_no_dot fileName hdot, baseName_no_dot fileName hdot, ?_⟩
  rw [splitMedia_name_getD fileName sizeBytes duration spec engineOk k hok hk,
    fileExt_no_dot fileName hdot, baseName_no_dot fileName hdot]

/-- C10 witness: splitting a file named `video` (no dot) in two, the first
artifact is named `1_video_1.video`. -/
theorem splitMedia_dotless_names_witness :
    '.' ∉ "video".data ∧
    0 < (splitMedia "video" 100 10 (.parts 2) (fun _ => true)).resultFiles.length ∧
    ((splitMedia "video" 100 10 (.parts 2)
        (fun _ => true)).resultFiles.getD 0 ⟨""⟩).name = "1_video_1.video" := by
  have hdot : '.' ∉ "video".data := by decide
  have hlen : 0 < (splitMedia "video" 100 10 (.parts 2)
      (fun _ => true)).resultFiles.length := by
    norm_num [splitMedia, plan, currentParts, currentPartDuration, windowsFrom, runSegments]
  have h := splitMedia_dotless_names "video" 100 10 (.parts 2) (fun _ => true) 0
    hdot (fun _ => rfl) hlen
  exact ⟨hdot, hlen, h.2.2.trans (by decide)⟩

end MediaSplitter
